import Mathlib

set_option autoImplicit false

/-!
Verification of the question-browser core of the DotNetAssesment repository
(`src/App.jsx`): category resolution, display-id assignment, filter/sort,
reveal-state lifecycle with persistence, and the inline-code text formatter.

Modelling conventions:
* JS strings are Lean `String` (a list of characters); `toLowerCase` is
  `String.toLower`; `includes` is an executable substring scan (`occursIn`);
  `localeCompare` and the default string `sort()` comparison are both
  modelled as code-point lexicographic comparison (`strCmpInt`).
* `Array.prototype.sort` is stable (ES2019); with a consistent comparator
  every stable sort produces the same list, so it is embedded as the stable
  insertion sort `sortLe` driven by the boolean test "comparator ≤ 0".
* JS objects keyed by question id are association lists `List (Nat × Nat)`;
  object spread with a key override is `setKey`, `delete` is `removeKey`,
  `Object.keys(m).length` is `List.length`.
* `localStorage` is an `Option String` slot; `JSON.parse` is modelled by
  `parseRevealJson`, a parser for exactly the object shape this app
  persists; a parse failure models the `SyntaxError` that `JSON.parse`
  throws, surfaced as `Except.error`.
* The backtick character is written `Char.ofNat 96` and braces inside
  string literals are written with their escapes.
-/

namespace QuizApp

/-- The backtick character, delimiter of inline-code spans. -/
def tick : Char := Char.ofNat 96

/-- A question record as stored in the static dataset (`questions.json`).
Optional fields model JSON fields that may be absent. -/
structure Question where
  id : Nat
  category : Option String
  question : String
  code : Option String
  codeLanguage : Option String
  options : List String
  correctAnswer : Nat
deriving DecidableEq, Repr

/-- The static dataset: the ordered question list plus the optional
`categoryOrder` precedence list. -/
structure Dataset where
  questions : List Question
  categoryOrder : Option (List String)
deriving DecidableEq, Repr

/-- JS `v || dflt` for a JSON string field: absent and the (falsy) empty
string both fall back to the default. -/
def jsOrElse (v : Option String) (dflt : String) : String :=
  match v with
  | none => dflt
  | some s => if s = "" then dflt else s

/-- The normalized category of a question: `q.category || 'Other'`. -/
def normCat (q : Question) : String := jsOrElse q.category "Other"

/-- Normalization step used by `displayIdMap` and `filteredQuestions`:
the record with its category replaced by the normalized one. -/
def normalizeQ (q : Question) : Question := { q with category := some (normCat q) }

/-- Boolean test that the first list is a prefix of the second. -/
def leadsWith : List Char → List Char → Bool
  | [], _ => true
  | _ :: _, [] => false
  | a :: as, b :: bs => a == b && leadsWith as bs

/-- Boolean test that the first list occurs contiguously inside the second,
the model of JS `String.prototype.includes`. -/
def occursIn : List Char → List Char → Bool
  | needle, [] => leadsWith needle []
  | needle, b :: bs => leadsWith needle (b :: bs) || occursIn needle bs

/-- The characters of a string lowercased, the model of JS `toLowerCase`
(character-wise lowercasing). -/
def lowerChars (s : String) : List Char := s.data.map Char.toLower

/-- JS `hay.toLowerCase().includes(needle.toLowerCase())`. -/
def includesCI (hay needle : String) : Bool := occursIn (lowerChars needle) (lowerChars hay)

/-- Three-way string comparison as an integer, the model of both
`localeCompare` and the default `sort()` string comparison. -/
def strCmpInt (a b : String) : Int := if a < b then -1 else if b < a then 1 else 0

/-- JS `Array.prototype.indexOf`: index of the first occurrence, `-1` when
the element does not occur. -/
def jsIndexOf (l : List String) (x : String) : Int :=
  match l with
  | [] => -1
  | y :: ys =>
    if y == x then 0
    else
      let r := jsIndexOf ys x
      if r == -1 then -1 else r + 1

/-- The category comparator from `displayIdMap` and `filteredQuestions`:
equal categories tie; two categories listed in `categoryOrder` compare by
declared index; a listed category precedes an unlisted one; two unlisted
categories compare alphabetically (`localeCompare`). -/
def catCmpInt (order : List String) (a b : String) : Int :=
  if a == b then 0
  else if jsIndexOf order a != -1 && jsIndexOf order b != -1 then
    jsIndexOf order a - jsIndexOf order b
  else if jsIndexOf order a != -1 then -1
  else if jsIndexOf order b != -1 then 1
  else strCmpInt a b

/-- Stable insertion of an element into a list: it lands before the first
element `y` with `le x y`. -/
def insertLe {α : Type} (le : α → α → Bool) (x : α) : List α → List α
  | [] => [x]
  | y :: ys => if le x y then x :: y :: ys else y :: insertLe le x ys

/-- Stable insertion sort; with a consistent comparator this is the result
of any stable sort, in particular of ES2019 `Array.prototype.sort`. -/
def sortLe {α : Type} (le : α → α → Bool) : List α → List α
  | [] => []
  | x :: xs => insertLe le x (sortLe le xs)

/-- Boolean "not greater" test for the default string sort. -/
def strLeB (a b : String) : Bool := decide (strCmpInt a b ≤ 0)

/-- Boolean "not greater" test for the category comparator applied to
questions, as used by the two `sort` call sites. -/
def qLeB (order : List String) (a b : Question) : Bool :=
  decide (catCmpInt order (normCat a) (normCat b) ≤ 0)

/-- First-occurrence deduplication, the model of `[...new Set(arr)]`
(JS `Set` iteration follows first-insertion order). -/
def dedupFirstAux (seen : List String) : List String → List String
  | [] => []
  | x :: xs =>
    if seen.contains x then dedupFirstAux seen xs
    else x :: dedupFirstAux (x :: seen) xs

/-- First-occurrence deduplication of a list of category names. -/
def dedupFirst (l : List String) : List String := dedupFirstAux [] l

/-- The resolved category list (`categories` in the source): "All" followed
by the `categoryOrder` entries present in the dataset and then the
remaining distinct normalized categories sorted, or all distinct normalized
categories sorted when no order is declared. -/
def categories (d : Dataset) : List String :=
  let cats := dedupFirst (d.questions.map normCat)
  match d.categoryOrder with
  | some order =>
    let ordered := order.filter (fun c => cats.contains c)
    let others := sortLe strLeB (cats.filter (fun c => !(order.contains c)))
    "All" :: (ordered ++ others)
  | none => "All" :: sortLe strLeB cats

/-- The canonical "All"-view ordering of the full dataset used by
`displayIdMap`: normalized questions, sorted by the category comparator
when `categoryOrder` is declared. -/
def sortedAll (d : Dataset) : List Question :=
  let all := d.questions.map normalizeQ
  match d.categoryOrder with
  | some order => sortLe (qLeB order) all
  | none => all

/-- Association pairs `(q.id, position)` with 1-based positions starting at
`n`, mirroring the `forEach` loop that fills the display-id object. -/
def tagFrom (n : Nat) : List Question → List (Nat × Nat)
  | [] => []
  | q :: qs => (q.id, n) :: tagFrom (n + 1) qs

/-- Lookup in an object built by successive assignments: the assignment
performed last (closest to the end of the list) wins, as in JS. -/
def objLookup (m : List (Nat × Nat)) (k : Nat) : Option Nat :=
  match m with
  | [] => none
  | (k1, v) :: rest =>
    match objLookup rest k with
    | some v1 => some v1
    | none => if k == k1 then some v else none

/-- The entries of `displayIdMap`: id of each question of the canonical
ordering paired with its 1-based index. -/
def displayIdPairs (d : Dataset) : List (Nat × Nat) := tagFrom 1 (sortedAll d)

/-- The display id assigned to a question id (`displayIdMap[id]`). -/
def displayId (d : Dataset) (i : Nat) : Option Nat := objLookup (displayIdPairs d) i

/-- The number rendered for a question: `displayIdMap[question.id] || question.id`
(the fallback cannot fire on ids in the dataset, and all stored values are
at least 1, so JS falsiness of 0 never triggers). The unused search term
and selected category mirror the fact that the rendering context carries
them while the value does not depend on them. -/
def renderedDisplayId (d : Dataset) (_term _selCat : String) (q : Question) : Nat :=
  match displayId d q.id with
  | some n => n
  | none => q.id

/-- The search half of the filter predicate: case-insensitive `includes`
on the question text, or on the (truthy) code sample. -/
def matchesSearch (term : String) (q : Question) : Bool :=
  includesCI q.question term ||
    (match q.code with
     | none => false
     | some c => !(c == "") && includesCI c term)

/-- The category half of the filter predicate, evaluated on a normalized
question. -/
def matchesCat (selCat : String) (q : Question) : Bool :=
  selCat == "All" || normCat q == selCat

/-- The filter predicate of `filteredQuestions`. -/
def filterKeep (term selCat : String) (q : Question) : Bool :=
  matchesSearch term q && matchesCat selCat q

/-- Normalize-then-filter step of `filteredQuestions`, before the optional
sort; `List.filter` preserves dataset order. -/
def baseFiltered (d : Dataset) (term selCat : String) : List Question :=
  (d.questions.map normalizeQ).filter (filterKeep term selCat)

/-- The visible question list: the filtered list, sorted by the category
comparator when the selected category is "All" and `categoryOrder` is
declared, in dataset order otherwise. -/
def filteredQuestions (d : Dataset) (term selCat : String) : List Question :=
  match d.categoryOrder with
  | some order =>
    if selCat == "All" then sortLe (qLeB order) (baseFiltered d term selCat)
    else baseFiltered d term selCat
  | none => baseFiltered d term selCat

/-- The count rendered next to a category button: matches of the normalized
category over the full unfiltered dataset. The unused search term and
selected category mirror the rendering context. -/
def categoryCountDisplayed (d : Dataset) (_term _selCat : String) (c : String) : Nat :=
  (d.questions.filter (fun q => normCat q == c)).length

/-- Object spread with one key overridden (`\x7b...prev, [id]: k\x7d`): an
existing key keeps its position and gets the new value, a new key is
appended. -/
def setKey : List (Nat × Nat) → Nat → Nat → List (Nat × Nat)
  | [], i, k => [(i, k)]
  | (j, v) :: rest, i, k =>
    if j == i then (j, k) :: rest else (j, v) :: setKey rest i k

/-- JS `delete obj[id]`. -/
def removeKey : List (Nat × Nat) → Nat → List (Nat × Nat)
  | [], _ => []
  | (j, v) :: rest, i =>
    if j == i then removeKey rest i else (j, v) :: removeKey rest i

/-- Reading `obj[id]` from the reveal-state object. -/
def lookupVal : List (Nat × Nat) → Nat → Option Nat
  | [], _ => none
  | (j, v) :: rest, i => if j == i then some v else lookupVal rest i

/-- Whether a question id has a revealed entry. -/
def hasKey (m : List (Nat × Nat)) (i : Nat) : Bool :=
  (lookupVal m i).isSome

/-- The progress triple surfaced by the UI. -/
structure Progress where
  revealedCount : Nat
  totalCount : Nat
  percentage : Nat
deriving DecidableEq, Repr

/-- Progress metrics: `Object.keys(revealedAnswers).length` out of the full
dataset size, with `Math.round(count / total * 100)` computed exactly on
rationals (the empty-dataset `NaN` is modelled as 0). -/
def progress (d : Dataset) (m : List (Nat × Nat)) : Progress :=
  { revealedCount := m.length
    totalCount := d.questions.length
    percentage := (200 * m.length + d.questions.length) / (2 * d.questions.length) }

/-- JSON.stringify of the reveal-state object, as the persistence effect
writes it: keys are quoted decimal ids, values decimal indices. -/
def stringifyRevealState (m : List (Nat × Nat)) : String :=
  "\x7b" ++
    String.intercalate "," (m.map (fun p => "\"" ++ toString p.1 ++ "\":" ++ toString p.2)) ++
    "\x7d"

/-- Opening brace character. -/
def lbrace : Char := Char.ofNat 123

/-- Closing brace character. -/
def rbrace : Char := Char.ofNat 125

/-- Longest leading run of decimal digits, and the remainder. -/
def takeDigits : List Char → List Char × List Char
  | [] => ([], [])
  | c :: cs =>
    if c.isDigit then
      let r := takeDigits cs
      (c :: r.1, r.2)
    else ([], c :: cs)

/-- Decimal value of a digit run. -/
def digitsToNat (ds : List Char) : Nat :=
  ds.foldl (fun acc c => acc * 10 + (c.toNat - 48)) 0

/-- Parse a nonempty run of digits as a natural number. -/
def parseNatTok (l : List Char) : Option (Nat × List Char) :=
  match takeDigits l with
  | ([], _) => none
  | (ds, rest) => some (digitsToNat ds, rest)

/-- Parse one `"id":index` entry. -/
def parseEntry (l : List Char) : Option ((Nat × Nat) × List Char) :=
  match l with
  | '"' :: r1 =>
    match parseNatTok r1 with
    | none => none
    | some (k, r2) =>
      match r2 with
      | '"' :: ':' :: r3 =>
        match parseNatTok r3 with
        | none => none
        | some (v, r4) => some ((k, v), r4)
      | _ => none
  | _ => none

/-- Parse a comma-separated nonempty entry sequence; the fuel bounds the
number of entries and any input length suffices. -/
def parseEntriesAux : Nat → List Char → Option (List (Nat × Nat) × List Char)
  | 0, _ => none
  | fuel + 1, l =>
    match parseEntry l with
    | none => none
    | some (kv, rest) =>
      match rest with
      | ',' :: rest1 =>
        match parseEntriesAux fuel rest1 with
        | none => none
        | some (kvs, rest2) => some (kv :: kvs, rest2)
      | _ => some ([kv], rest)

/-- Modelled from the spec: `JSON.parse` (an external builtin not present
in the repository) restricted to the reveal-state object shape that this
app persists; any input outside that shape is a parse failure, modelling
the `SyntaxError` thrown by `JSON.parse` on malformed input such as a lone
opening brace. -/
def parseRevealJson (s : String) : Option (List (Nat × Nat)) :=
  match s.data with
  | [] => none
  | c :: rest =>
    if c == lbrace then
      match rest with
      | [] => none
      | c2 :: rest2 =>
        if c2 == rbrace then (if rest2.isEmpty then some [] else none)
        else
          match parseEntriesAux (rest.length + 1) rest with
          | none => none
          | some (kvs, rest3) =>
            match rest3 with
            | [] => none
            | c3 :: rest4 => if c3 == rbrace && rest4.isEmpty then some kvs else none
    else none

/-- The reveal-state initializer: absent slot (and the falsy empty string)
give the empty object; otherwise the persisted string is parsed, a parse
failure being the `SyntaxError` that `JSON.parse` throws out of the
initializer (there is no catch in the source). -/
def initRevealState (slot : Option String) : Except String (List (Nat × Nat)) :=
  match slot with
  | none => Except.ok []
  | some s =>
    if s == "" then Except.ok []
    else
      match parseRevealJson s with
      | some m => Except.ok m
      | none => Except.error "SyntaxError"

/-- The reveal-state store together with its persistence slot. -/
structure QuizStore where
  revealedAnswers : List (Nat × Nat)
  storage : Option String
deriving DecidableEq, Repr

/-- The persistence effect: after every state change the full mapping is
serialized into the slot. -/
def persistEffect (st : QuizStore) : QuizStore :=
  { st with storage := some (stringifyRevealState st.revealedAnswers) }

/-- The reveal operation (`handleAnswerClick`) followed by the persistence
effect. -/
def handleAnswerClick (st : QuizStore) (questionId answerIndex : Nat) : QuizStore :=
  persistEffect { st with revealedAnswers := setKey st.revealedAnswers questionId answerIndex }

/-- The per-question unreveal operation (`resetRevealed`) followed by the
persistence effect. -/
def resetRevealed (st : QuizStore) (questionId : Nat) : QuizStore :=
  persistEffect { st with revealedAnswers := removeKey st.revealedAnswers questionId }

/-- The confirmed reset-all operation: state emptied, slot removed, then
the persistence effect re-serializes the empty mapping; unconfirmed, a
no-op. -/
def resetAllProgress (confirmed : Bool) (st : QuizStore) : QuizStore :=
  if confirmed then persistEffect { revealedAnswers := [], storage := none } else st

/-- Longest leading run of non-backtick characters, and the remainder. -/
def takeRun : List Char → List Char × List Char
  | [] => ([], [])
  | c :: cs =>
    if c == tick then ([], c :: cs)
    else
      let r := takeRun cs
      (c :: r.1, r.2)

/-- Decomposition property of `takeRun`. -/
theorem takeRun_append (l : List Char) : (takeRun l).1 ++ (takeRun l).2 = l := by
  induction l with
  | nil => rfl
  | cons c cs ih =>
    by_cases h : c == tick
    · simp [takeRun, h]
    · simp only [takeRun, h]
      simp [ih]

/-- The split of a text on the regex of backtick-delimited spans, captures
included, exactly as `String.prototype.split` with a capturing group
returns it: a match needs a backtick, at least one non-backtick, and a
closing backtick; non-matching stretches (possibly empty) are kept as
plain parts. The accumulator holds the pending plain part reversed. -/
def scanParts (acc : List Char) (l : List Char) : List (List Char) :=
  match l with
  | [] => [acc.reverse]
  | c :: cs =>
    if c == tick then
      match h : takeRun cs with
      | ([], _) => scanParts (c :: acc) cs
      | (_ :: _, []) => scanParts (c :: acc) cs
      | (r0 :: run, r1 :: rest1) =>
        if r1 == tick then
          acc.reverse :: (tick :: ((r0 :: run) ++ [tick])) :: scanParts [] rest1
        else scanParts (c :: acc) cs
    else scanParts (c :: acc) cs
termination_by l.length
decreasing_by
  all_goals try simp_wf
  all_goals try (first | omega | (simp only [List.length_cons]; omega))
  all_goals
    (have e := takeRun_append cs
     rw [h] at e
     have hl := congrArg List.length e
     simp only [List.length_append, List.length_cons] at hl
     first | omega | (simp only [List.length_cons]; omega))

/-- The parts of `formatText`'s split for a given input string. -/
def splitParts (s : String) : List (List Char) := scanParts [] s.data

/-- One rendered segment of `formatText`. -/
structure Segment where
  isCode : Bool
  text : String
deriving DecidableEq, Repr

/-- Rendering of one split part: a part whose first and last characters are
backticks becomes an inline-code segment with `slice(1, -1)` applied, any
other part stays plain text. -/
def renderPart (p : List Char) : Segment :=
  if p.head? == some tick && p.getLast? == some tick then
    { isCode := true, text := String.mk ((p.drop 1).dropLast) }
  else
    { isCode := false, text := String.mk p }

/-- The inline-code formatter: split, then render each part. For the empty
string the source returns the falsy input untouched before splitting; the
theorems about this function therefore carry a nonemptiness hypothesis. -/
def formatText (s : String) : List Segment := (splitParts s).map renderPart

/-- Concatenation of raw split parts. -/
def joinParts (ps : List (List Char)) : List Char := ps.foldr (· ++ ·) []

/-- A segment put back into source form: surrounding backticks restored on
inline-code segments. -/
def restoreSegment (seg : Segment) : String :=
  if seg.isCode then String.mk [tick] ++ seg.text ++ String.mk [tick] else seg.text

/-- Concatenation of restored segments, the reading of the round-trip
property stated in the specification. -/
def restoreSegments (segs : List Segment) : String :=
  segs.foldr (fun seg acc => restoreSegment seg ++ acc) ""

/-- A question record with given id and category and neutral remaining
fields, for concrete scenarios. -/
def exQ (i : Nat) (cat : Option String) : Question :=
  { id := i, category := cat, question := "", code := none,
    codeLanguage := none, options := [], correctAnswer := 0 }

/-- The scenario dataset of the specification: ids 1, 2, 3 with categories
"Sync", absent, "Sync", and declared order ["Sync"]. -/
def exDataset : Dataset :=
  { questions := [exQ 1 (some "Sync"), exQ 2 none, exQ 3 (some "Sync")],
    categoryOrder := some ["Sync"] }

/-- The empty dataset. -/
def emptyDataset : Dataset := { questions := [], categoryOrder := none }

/-! Sanity checks of the specification scenario. -/

theorem exDataset_categories : categories exDataset = ["All", "Sync", "Other"] := by decide

theorem exDataset_displayIds :
    (displayId exDataset 1, displayId exDataset 2, displayId exDataset 3)
      = (some 1, some 3, some 2) := by decide

/-! Reveal-state lemmas. -/

theorem setKey_length (m : List (Nat × Nat)) (i k : Nat) :
    (setKey m i k).length = if hasKey m i then m.length else m.length + 1 := by
  induction m with
  | nil => simp [setKey, hasKey, lookupVal]
  | cons p rest ih =>
    obtain ⟨j, v⟩ := p
    by_cases h : j = i
    · simp [setKey, hasKey, lookupVal, h]
    · have hk : hasKey ((j, v) :: rest) i = hasKey rest i := by
        simp [hasKey, lookupVal, beq_iff_eq, h]
      simp only [setKey, beq_iff_eq, h, if_false, List.length_cons, hk, ih]
      by_cases h2 : hasKey rest i <;> simp [h2]

theorem lookupVal_setKey_ne (m : List (Nat × Nat)) (i j k : Nat) (h : i ≠ j) :
    lookupVal (setKey m i k) j = lookupVal m j := by
  induction m with
  | nil => simp [setKey, lookupVal, beq_iff_eq, h]
  | cons p rest ih =>
    obtain ⟨a, v⟩ := p
    by_cases ha : a = i
    · subst ha
      simp [setKey, lookupVal, beq_iff_eq, h]
    · simp [setKey, lookupVal, beq_iff_eq, ha, ih]

theorem lookupVal_removeKey_ne (m : List (Nat × Nat)) (i j : Nat) (h : i ≠ j) :
    lookupVal (removeKey m i) j = lookupVal m j := by
  induction m with
  | nil => simp [removeKey]
  | cons p rest ih =>
    obtain ⟨a, v⟩ := p
    by_cases ha : a = i
    · have haj : a ≠ j := by omega
      simp [removeKey, lookupVal, beq_iff_eq, ha, haj, ih, h]
    · simp [removeKey, lookupVal, beq_iff_eq, ha, ih]

theorem lookupVal_removeKey_self (m : List (Nat × Nat)) (i : Nat) :
    lookupVal (removeKey m i) i = none := by
  induction m with
  | nil => simp [removeKey, lookupVal]
  | cons p rest ih =>
    obtain ⟨a, v⟩ := p
    by_cases ha : a = i
    · simp [removeKey, lookupVal, ha, ih]
    · simp [removeKey, lookupVal, beq_iff_eq, ha, ih]

/-- C7: reveal followed by progress increments `revealedCount` by exactly
one when the id had no entry, leaves it unchanged when it had one, and
`totalCount` is always the full dataset size. -/
theorem reveal_progress_count (d : Dataset) (m : List (Nat × Nat)) (i k : Nat) :
    ((progress d (setKey m i k)).revealedCount =
        if hasKey m i then (progress d m).revealedCount
        else (progress d m).revealedCount + 1)
    ∧ (progress d (setKey m i k)).totalCount = d.questions.length
    ∧ (progress d m).totalCount = d.questions.length :=
  ⟨setKey_length m i k, rfl, rfl⟩

/-- C8: a confirmed reset-all leaves the in-memory mapping empty, leaves
the persisted slot deserializing to the empty mapping, and a simulated
reload therefore reads progress 0 out of N. -/
theorem resetAll_clears_everything (d : Dataset) (st : QuizStore) :
    (resetAllProgress true st).revealedAnswers = []
    ∧ initRevealState (resetAllProgress true st).storage = Except.ok []
    ∧ (progress d []).revealedCount = 0
    ∧ (progress d []).totalCount = d.questions.length :=
  ⟨rfl, rfl, rfl, rfl⟩

/-- C9: revealing one id does not disturb the entry of any other id, and
unrevealing removes exactly the entry of its id. -/
theorem reveal_unreveal_frame (m : List (Nat × Nat)) (i j k : Nat) (h : i ≠ j) :
    lookupVal (setKey m i k) j = lookupVal m j
    ∧ lookupVal (removeKey m i) j = lookupVal m j
    ∧ lookupVal (removeKey m i) i = none :=
  ⟨lookupVal_setKey_ne m i j k h, lookupVal_removeKey_ne m i j h,
    lookupVal_removeKey_self m i⟩

/-- Witness for C9 at a concrete store. -/
theorem reveal_unreveal_frame_witness :
    lookupVal (setKey [(1, 5)] 2 0) 1 = lookupVal [(1, 5)] 1
    ∧ lookupVal (removeKey [(1, 5)] 2) 1 = lookupVal [(1, 5)] 1
    ∧ lookupVal (removeKey [(1, 5)] 2) 2 = none :=
  reveal_unreveal_frame [(1, 5)] 2 1 0 (by decide)

/-- C2 counterexample: a corrupt persisted slot (a lone opening brace, on
which `JSON.parse` throws) makes initialization propagate the error rather
than fall back to the empty mapping. -/
theorem initRevealState_corrupt_throws :
    initRevealState (some "\x7b") = Except.error "SyntaxError"
    ∧ initRevealState (some "\x7b") ≠ Except.ok [] := by
  have h1 : initRevealState (some "\x7b") = Except.error "SyntaxError" := rfl
  refine ⟨h1, ?_⟩
  intro h2
  rw [h1] at h2
  exact Except.noConfusion h2

/-- C2 amended: an absent (or empty) slot silently yields the empty
mapping, but data that fails to deserialize makes initialization throw the
parse error, since the source has no catch around `JSON.parse`. -/
theorem initRevealState_amended :
    initRevealState none = Except.ok []
    ∧ initRevealState (some "") = Except.ok []
    ∧ ∀ s, s ≠ "" → parseRevealJson s = none →
        initRevealState (some s) = Except.error "SyntaxError" := by
  refine ⟨rfl, rfl, ?_⟩
  intro s hs hp
  have hb : (s == "") = false := by
    simpa using hs
  simp [initRevealState, hb, hp]

/-- Witness for the amended C2 at a concrete corrupt slot. -/
theorem initRevealState_amended_witness :
    initRevealState (some "x") = Except.error "SyntaxError" :=
  initRevealState_amended.2.2 "x" (by decide) (by decide)

/-! Substring characterization and the filter predicate. -/

theorem occursIn_nil_left (h : List Char) : occursIn [] h = true := by
  cases h <;> simp [occursIn, leadsWith]

theorem leadsWith_iff (n : List Char) : ∀ h : List Char,
    leadsWith n h = true ↔ ∃ post, h = n ++ post := by
  induction n with
  | nil =>
    intro h
    simp [leadsWith]
  | cons a as ih =>
    intro h
    cases h with
    | nil =>
      simp [leadsWith]
    | cons b bs =>
      simp only [leadsWith, Bool.and_eq_true, beq_iff_eq, ih, List.cons_append]
      constructor
      · rintro ⟨hab, post, hpost⟩
        exact ⟨post, by simp [hab, hpost]⟩
      · rintro ⟨post, hpost⟩
        simp only [List.cons.injEq] at hpost
        exact ⟨hpost.1.symm, post, hpost.2⟩

theorem occursIn_iff (n : List Char) : ∀ h : List Char,
    occursIn n h = true ↔ ∃ pre post, h = pre ++ n ++ post := by
  intro h
  induction h with
  | nil =>
    rw [occursIn, leadsWith_iff]
    constructor
    · rintro ⟨post, hpost⟩
      exact ⟨[], post, by simpa using hpost⟩
    · rintro ⟨pre, post, hp⟩
      have h0 := hp.symm
      simp only [List.append_assoc, List.append_eq_nil] at h0
      exact ⟨[], by simp [h0.1, h0.2.1, h0.2.2]⟩
  | cons b bs ih =>
    rw [occursIn, Bool.or_eq_true, leadsWith_iff, ih]
    constructor
    · rintro (⟨post, hp⟩ | ⟨pre, post, hp⟩)
      · exact ⟨[], post, by simpa using hp⟩
      · exact ⟨b :: pre, post, by simp [hp]⟩
    · rintro ⟨pre, post, hp⟩
      cases pre with
      | nil => exact Or.inl ⟨post, by simpa using hp⟩
      | cons x pre1 =>
        right
        simp only [List.cons_append, List.cons.injEq, List.append_assoc] at hp
        exact ⟨pre1, post, by simp [hp.2]⟩

theorem lowerChars_eq_nil (t : String) : lowerChars t = [] ↔ t = "" := by
  rw [lowerChars, List.map_eq_nil_iff]
  constructor
  · intro hd
    obtain ⟨l⟩ := t
    have hl : l = [] := hd
    rw [hl]
  · rintro rfl
    rfl

/-- The specification's notion of case-insensitive substring match: the
lowercased term occurs contiguously in the lowercased text. -/
def SubstrCI (term s : String) : Prop :=
  ∃ pre post, lowerChars s = pre ++ lowerChars term ++ post

/-- C4: a question passes the filter iff the search term is empty, or a
case-insensitive substring of the question text, or of a present code
sample, and the selected category is "All" or the normalized category; the
search never looks at option text, category or id. -/
theorem filterKeep_iff (term selCat : String) (q : Question) :
    (filterKeep term selCat q = true ↔
      ((term = "" ∨ SubstrCI term q.question ∨ ∃ c, q.code = some c ∧ SubstrCI term c)
        ∧ (selCat = "All" ∨ normCat q = selCat)))
    ∧ (∀ q', q.question = q'.question → q.code = q'.code →
        matchesSearch term q = matchesSearch term q') := by
  constructor
  · rw [filterKeep, Bool.and_eq_true]
    apply and_congr
    · rw [matchesSearch, Bool.or_eq_true]
      by_cases hterm : term = ""
      · subst hterm
        constructor
        · intro _
          exact Or.inl rfl
        · intro _
          left
          rw [includesCI, show lowerChars "" = [] from rfl]
          exact occursIn_nil_left _
      · have hnil : lowerChars term ≠ [] := fun hx => hterm ((lowerChars_eq_nil term).1 hx)
        constructor
        · rintro (hq | hcode)
          · exact Or.inr (Or.inl ((occursIn_iff _ _).1 hq))
          · right
            right
            cases hc : q.code with
            | none =>
              rw [hc] at hcode
              exact absurd hcode (by simp)
            | some c =>
              rw [hc] at hcode
              rw [Bool.and_eq_true] at hcode
              exact ⟨c, rfl, (occursIn_iff _ _).1 hcode.2⟩
        · rintro (rfl | hq | ⟨c, hc, hsub⟩)
          · exact absurd rfl hterm
          · exact Or.inl ((occursIn_iff _ _).2 hq)
          · right
            rw [hc, Bool.and_eq_true]
            refine ⟨?_, (occursIn_iff _ _).2 hsub⟩
            by_contra hcc
            have hc0 : c = "" := by
              cases hb : (c == "") with
              | true => exact eq_of_beq hb
              | false =>
                rw [hb] at hcc
                exact absurd rfl hcc
            subst hc0
            obtain ⟨pre, post, hp⟩ := hsub
            rw [show lowerChars "" = [] from rfl] at hp
            have h0 := hp.symm
            simp only [List.append_assoc, List.append_eq_nil] at h0
            exact hnil h0.2.1
    · simp [matchesCat]
  · intro q' h1 h2
    rw [matchesSearch, matchesSearch, h1, h2]

/-- Witness for C4: two questions equal in text and code but different in
id, category, options and correct answer get the same search verdict. -/
theorem filterKeep_iff_witness :
    matchesSearch "array"
        { id := 10, category := some "A", question := "uses int array",
          code := some "int drop array", codeLanguage := some "csharp",
          options := ["x"], correctAnswer := 0 }
      = matchesSearch "array"
        { id := 11, category := some "B", question := "uses int array",
          code := some "int drop array", codeLanguage := none,
          options := ["y", "z"], correctAnswer := 1 } :=
  (filterKeep_iff "array" "All"
      { id := 10, category := some "A", question := "uses int array",
        code := some "int drop array", codeLanguage := some "csharp",
        options := ["x"], correctAnswer := 0 }).2
    { id := 11, category := some "B", question := "uses int array",
      code := some "int drop array", codeLanguage := none,
      options := ["y", "z"], correctAnswer := 1 } rfl rfl

/-- C6: the count rendered next to a category button is the number of
dataset questions with that normalized category, over the full unfiltered
dataset, whatever the current search term and selected category. -/
theorem categoryCount_full_dataset (d : Dataset) (term selCat c : String)
    (hc : c ∈ categories d) (hcAll : c ≠ "All") :
    categoryCountDisplayed d term selCat c = (d.questions.map normCat).count c := by
  rw [categoryCountDisplayed, ← List.countP_eq_length_filter]
  have hcount : (d.questions.map normCat).count c
      = List.countP (fun x => x == c) (d.questions.map normCat) := rfl
  rw [hcount, List.countP_map]
  rfl

/-- Witness for C6 at the scenario dataset. -/
theorem categoryCount_witness :
    categoryCountDisplayed exDataset "abc" "Other" "Sync"
      = (exDataset.questions.map normCat).count "Sync" :=
  categoryCount_full_dataset exDataset "abc" "Other" "Sync" (by decide) (by decide)

/-! Generic lemmas about the stable insertion sort. -/

theorem insertLe_perm {α : Type} (le : α → α → Bool) (x : α) (l : List α) :
    (insertLe le x l).Perm (x :: l) := by
  induction l with
  | nil => exact List.Perm.refl _
  | cons y ys ih =>
    rw [insertLe]
    by_cases h : le x y
    · rw [if_pos h]
    · rw [if_neg h]
      exact (ih.cons y).trans (List.Perm.swap x y ys)

theorem sortLe_perm {α : Type} (le : α → α → Bool) (l : List α) :
    (sortLe le l).Perm l := by
  induction l with
  | nil => exact List.Perm.refl _
  | cons x xs ih =>
    rw [sortLe]
    exact (insertLe_perm le x (sortLe le xs)).trans (ih.cons x)

theorem insertLe_pairwise {α : Type} (le : α → α → Bool)
    (total : ∀ a b, le a b = true ∨ le b a = true)
    (htrans : ∀ a b c, le a b = true → le b c = true → le a c = true)
    (x : α) (l : List α) (hl : l.Pairwise (fun a b => le a b = true)) :
    (insertLe le x l).Pairwise (fun a b => le a b = true) := by
  induction l with
  | nil => simp [insertLe]
  | cons y ys ih =>
    rw [List.pairwise_cons] at hl
    obtain ⟨hy, hys⟩ := hl
    rw [insertLe]
    by_cases h : le x y
    · rw [if_pos h]
      refine List.Pairwise.cons ?_ (List.Pairwise.cons hy hys)
      intro z hz
      rw [List.mem_cons] at hz
      rcases hz with rfl | hz
      · exact h
      · exact htrans x y z h (hy z hz)
    · rw [if_neg h]
      refine List.Pairwise.cons ?_ (ih hys)
      intro z hz
      have hz2 : z ∈ x :: ys := (insertLe_perm le x ys).mem_iff.1 hz
      rw [List.mem_cons] at hz2
      rcases hz2 with rfl | hz2
      · rcases total z y with h1 | h2
        · exact absurd h1 h
        · exact h2
      · exact hy z hz2

theorem sortLe_pairwise {α : Type} (le : α → α → Bool)
    (total : ∀ a b, le a b = true ∨ le b a = true)
    (htrans : ∀ a b c, le a b = true → le b c = true → le a c = true)
    (l : List α) : (sortLe le l).Pairwise (fun a b => le a b = true) := by
  induction l with
  | nil => simp [sortLe]
  | cons x xs ih =>
    rw [sortLe]
    exact insertLe_pairwise le total htrans x (sortLe le xs) ih

theorem insertLe_filter_pos {α : Type} (le : α → α → Bool) (p : α → Bool) (x : α)
    (l : List α) (hpx : p x = true) (hstop : ∀ y, p y = true → le x y = true) :
    (insertLe le x l).filter p = x :: l.filter p := by
  induction l with
  | nil => simp [insertLe, hpx]
  | cons y ys ih =>
    rw [insertLe]
    by_cases h : le x y
    · rw [if_pos h]
      simp [List.filter_cons, hpx]
    · rw [if_neg h]
      have hpy : p y = false := by
        cases hb : p y with
        | true => exact absurd (hstop y hb) h
        | false => rfl
      simp [List.filter_cons, hpy, ih]

theorem insertLe_filter_neg {α : Type} (le : α → α → Bool) (p : α → Bool) (x : α)
    (l : List α) (hpx : p x = false) :
    (insertLe le x l).filter p = l.filter p := by
  induction l with
  | nil => simp [insertLe, hpx]
  | cons y ys ih =>
    rw [insertLe]
    by_cases h : le x y
    · rw [if_pos h]
      simp [List.filter_cons, hpx]
    · rw [if_neg h]
      cases hb : p y <;> simp [List.filter_cons, hb, ih]

theorem sortLe_filter_stable {α : Type} (le : α → α → Bool) (p : α → Bool)
    (l : List α) (hkey : ∀ x y, p x = true → p y = true → le x y = true) :
    (sortLe le l).filter p = l.filter p := by
  induction l with
  | nil => rfl
  | cons x xs ih =>
    rw [sortLe]
    cases hb : p x with
    | true =>
      rw [insertLe_filter_pos le p x _ hb (fun y hy => hkey x y hb hy), ih,
        List.filter_cons, hb]
      simp
    | false =>
      rw [insertLe_filter_neg le p x _ hb, ih, List.filter_cons, hb]
      simp

theorem insertLe_congr {α : Type} (le1 le2 : α → α → Bool)
    (h : ∀ a b, le1 a b = le2 a b) (x : α) (l : List α) :
    insertLe le1 x l = insertLe le2 x l := by
  induction l with
  | nil => rfl
  | cons y ys ih =>
    rw [insertLe, insertLe, h, ih]

theorem sortLe_congr {α : Type} (le1 le2 : α → α → Bool)
    (h : ∀ a b, le1 a b = le2 a b) (l : List α) :
    sortLe le1 l = sortLe le2 l := by
  induction l with
  | nil => rfl
  | cons x xs ih =>
    rw [sortLe, sortLe, ih, insertLe_congr le1 le2 h]

/-! The key order underlying the category comparator. -/

/-- The sort key of a category name: its declared index when it is listed
in `categoryOrder`, the name itself otherwise. -/
def keyOf (order : List String) (a : String) : Nat ⊕ String :=
  if jsIndexOf order a = -1 then Sum.inr a else Sum.inl (jsIndexOf order a).toNat

/-- The specification order on sort keys: declared indices in numeric
order, every declared key before every undeclared one, undeclared keys in
alphabetical order. -/
def keyLE : Nat ⊕ String → Nat ⊕ String → Prop
  | Sum.inl i, Sum.inl j => i ≤ j
  | Sum.inl _, Sum.inr _ => True
  | Sum.inr _, Sum.inl _ => False
  | Sum.inr s, Sum.inr t => s ≤ t

theorem keyLE_refl (k : Nat ⊕ String) : keyLE k k := by
  cases k with
  | inl i => exact le_refl i
  | inr s => exact le_refl s

theorem keyLE_total (k1 k2 : Nat ⊕ String) : keyLE k1 k2 ∨ keyLE k2 k1 := by
  cases k1 with
  | inl i =>
    cases k2 with
    | inl j => exact le_total i j
    | inr t => exact Or.inl trivial
  | inr s =>
    cases k2 with
    | inl j => exact Or.inr trivial
    | inr t => exact le_total s t

theorem keyLE_trans (k1 k2 k3 : Nat ⊕ String) :
    keyLE k1 k2 → keyLE k2 k3 → keyLE k1 k3 := by
  cases k1 <;> cases k2 <;> cases k3 <;>
    simp only [keyLE] <;>
    first
      | (intro h1 h2; exact le_trans h1 h2)
      | (intro h1 h2; exact h2.elim)
      | (intro h1 h2; exact h1.elim)
      | (intro h1 h2; exact h2)
      | (intro h1 h2; exact h1)
      | (intro h1; exact h1)
      | exact fun h => h
      | trivial

theorem jsIndexOf_ge (l : List String) (x : String) : -1 ≤ jsIndexOf l x := by
  induction l with
  | nil => simp [jsIndexOf]
  | cons y ys ih =>
    rw [jsIndexOf]
    by_cases h : y == x
    · rw [if_pos h]
      omega
    · rw [if_neg h]
      by_cases h2 : jsIndexOf ys x == -1
      · rw [if_pos h2]
      · rw [if_neg h2]
        omega

theorem strCmpInt_le_zero (a b : String) : strCmpInt a b ≤ 0 ↔ a ≤ b := by
  rw [strCmpInt]
  by_cases h1 : a < b
  · simp [h1, le_of_lt h1]
  · by_cases h2 : b < a
    · have h3 : ¬a ≤ b := not_le.mpr h2
      simp [h1, h2, h3]
    · have h4 : a = b := le_antisymm (not_lt.1 h2) (not_lt.1 h1)
      simp [h1, h2, h4]

theorem catCmpInt_le_iff (order : List String) (a b : String) :
    catCmpInt order a b ≤ 0 ↔ keyLE (keyOf order a) (keyOf order b) := by
  by_cases hab : a = b
  · subst hab
    simp [catCmpInt, keyLE_refl]
  · have c1 : ¬((a == b) = true) := by simp [hab]
    have ga := jsIndexOf_ge order a
    have gb := jsIndexOf_ge order b
    by_cases h1 : jsIndexOf order a = -1 <;> by_cases h2 : jsIndexOf order b = -1
    · have c2 : ¬((jsIndexOf order a != -1 && jsIndexOf order b != -1) = true) := by
        simp [bne_iff_ne, h1]
      have c3 : ¬((jsIndexOf order a != -1) = true) := by simp [bne_iff_ne, h1]
      have c4 : ¬((jsIndexOf order b != -1) = true) := by simp [bne_iff_ne, h2]
      rw [catCmpInt, if_neg c1, if_neg c2, if_neg c3, if_neg c4,
        keyOf, keyOf, if_pos h1, if_pos h2]
      show strCmpInt a b ≤ 0 ↔ a ≤ b
      exact strCmpInt_le_zero a b
    · have c2 : ¬((jsIndexOf order a != -1 && jsIndexOf order b != -1) = true) := by
        simp [bne_iff_ne, h1]
      have c3 : ¬((jsIndexOf order a != -1) = true) := by simp [bne_iff_ne, h1]
      have c4 : (jsIndexOf order b != -1) = true := by simp [bne_iff_ne, h2]
      rw [catCmpInt, if_neg c1, if_neg c2, if_neg c3, if_pos c4,
        keyOf, keyOf, if_pos h1, if_neg h2]
      show (1 : Int) ≤ 0 ↔ False
      simp
    · have c2 : ¬((jsIndexOf order a != -1 && jsIndexOf order b != -1) = true) := by
        simp [bne_iff_ne, h2]
      have c3 : (jsIndexOf order a != -1) = true := by simp [bne_iff_ne, h1]
      rw [catCmpInt, if_neg c1, if_neg c2, if_pos c3,
        keyOf, keyOf, if_neg h1, if_pos h2]
      show (-1 : Int) ≤ 0 ↔ True
      simp
    · have c2 : (jsIndexOf order a != -1 && jsIndexOf order b != -1) = true := by
        simp [bne_iff_ne, h1, h2]
      rw [catCmpInt, if_neg c1, if_pos c2, keyOf, keyOf, if_neg h1, if_neg h2]
      show jsIndexOf order a - jsIndexOf order b ≤ 0 ↔
        (jsIndexOf order a).toNat ≤ (jsIndexOf order b).toNat
      omega

theorem qLeB_total (order : List String) (a b : Question) :
    qLeB order a b = true ∨ qLeB order b a = true := by
  rw [qLeB, qLeB, decide_eq_true_eq, decide_eq_true_eq,
    catCmpInt_le_iff, catCmpInt_le_iff]
  exact keyLE_total _ _

theorem qLeB_trans (order : List String) (a b c : Question) :
    qLeB order a b = true → qLeB order b c = true → qLeB order a c = true := by
  rw [qLeB, qLeB, qLeB, decide_eq_true_eq, decide_eq_true_eq, decide_eq_true_eq,
    catCmpInt_le_iff, catCmpInt_le_iff, catCmpInt_le_iff]
  exact keyLE_trans _ _ _

theorem qLeB_of_same_cat (order : List String) (x y : Question)
    (h : normCat x = normCat y) : qLeB order x y = true := by
  rw [qLeB, decide_eq_true_eq, h]
  simp [catCmpInt]

/-- C3: with selected category "All" and a declared `categoryOrder`, the
visible list is the stable sort of the filtered questions by the category
comparator — a permutation of the filtered list, pairwise ordered by the
key order (declared index, listed before non-listed, alphabetical among
non-listed), with equal categories kept in dataset order; in every other
case the visible list is exactly the dataset-order filtered list. -/
theorem filteredQuestions_spec (d : Dataset) (term selCat : String) :
    (∀ order, d.categoryOrder = some order → selCat = "All" →
        (filteredQuestions d term selCat).Perm (baseFiltered d term selCat)
        ∧ (filteredQuestions d term selCat).Pairwise
            (fun a b => keyLE (keyOf order (normCat a)) (keyOf order (normCat b)))
        ∧ (∀ c, (filteredQuestions d term selCat).filter (fun q => normCat q == c)
            = (baseFiltered d term selCat).filter (fun q => normCat q == c)))
    ∧ ((d.categoryOrder = none ∨ selCat ≠ "All") →
        filteredQuestions d term selCat = baseFiltered d term selCat) := by
  constructor
  · intro order ho hsel
    subst hsel
    rw [filteredQuestions, ho]
    simp only [beq_self_eq_true, if_true]
    refine ⟨sortLe_perm _ _, ?_, ?_⟩
    · have hp := sortLe_pairwise (qLeB order) (qLeB_total order) (qLeB_trans order)
        (baseFiltered d term "All")
      refine hp.imp ?_
      intro a b hab
      rw [qLeB, decide_eq_true_eq, catCmpInt_le_iff] at hab
      exact hab
    · intro c
      refine sortLe_filter_stable _ _ _ ?_
      intro x y hx hy
      exact qLeB_of_same_cat order x y ((eq_of_beq hx).trans (eq_of_beq hy).symm)
  · intro hcase
    rcases hcase with hn | hne
    · rw [filteredQuestions, hn]
    · rw [filteredQuestions]
      cases ho : d.categoryOrder with
      | none => rfl
      | some order =>
        have hb : (selCat == "All") = false := by simp [hne]
        rw [hb]
        simp

/-- Witness for C3 at the scenario dataset with an empty search term. -/
theorem filteredQuestions_spec_witness :
    (filteredQuestions exDataset "" "All").Perm (baseFiltered exDataset "" "All")
    ∧ (∀ c, (filteredQuestions exDataset "" "All").filter (fun q => normCat q == c)
        = (baseFiltered exDataset "" "All").filter (fun q => normCat q == c)) :=
  ⟨((filteredQuestions_spec exDataset "" "All").1 ["Sync"] rfl rfl).1,
    ((filteredQuestions_spec exDataset "" "All").1 ["Sync"] rfl rfl).2.2⟩

/-! Display-id map lemmas. -/

theorem sortedAll_perm (d : Dataset) :
    (sortedAll d).Perm (d.questions.map normalizeQ) := by
  rw [sortedAll]
  cases d.categoryOrder with
  | none => exact List.Perm.refl _
  | some order => exact sortLe_perm _ _

theorem objLookup_tagFrom_not_mem (l : List Question) :
    ∀ (n k : Nat), k ∉ l.map Question.id → objLookup (tagFrom n l) k = none := by
  induction l with
  | nil => intro n k _; rfl
  | cons q qs ih =>
    intro n k h
    rw [List.map_cons, List.mem_cons, not_or] at h
    rw [tagFrom, objLookup, ih (n + 1) k h.2]
    simp [beq_iff_eq, h.1]

theorem objLookup_tagFrom (l : List Question) :
    ∀ (n i : Nat) (hi : i < l.length), (l.map Question.id).Nodup →
      objLookup (tagFrom n l) (l.get ⟨i, hi⟩).id = some (n + i) := by
  induction l with
  | nil =>
    intro n i hi
    exact absurd hi (by simp)
  | cons q qs ih =>
    intro n i hi hnd
    rw [List.map_cons, List.nodup_cons] at hnd
    obtain ⟨hq, hnd2⟩ := hnd
    cases i with
    | zero =>
      rw [tagFrom, objLookup]
      rw [show (q :: qs).get ⟨0, hi⟩ = q from rfl]
      rw [objLookup_tagFrom_not_mem qs (n + 1) q.id hq]
      simp
    | succ i1 =>
      have hi1 : i1 < qs.length := by
        rw [List.length_cons] at hi
        omega
      rw [tagFrom, objLookup]
      rw [show (q :: qs).get ⟨i1 + 1, hi⟩ = qs.get ⟨i1, hi1⟩ from rfl]
      rw [ih (n + 1) i1 hi1 hnd2]
      show some (n + 1 + i1) = some (n + (i1 + 1))
      congr 1
      omega

/-- C1: with unique question ids, the display-id map is a bijection from
the dataset's ids onto 1..N (every id gets a value in range, every value
in range is hit, distinct ids get distinct values), and the rendered
display id of a question does not depend on the current search term or
selected category. -/
theorem displayIdMap_bijection (d : Dataset)
    (hids : (d.questions.map Question.id).Nodup) :
    (∀ q ∈ d.questions, ∃ n, displayId d q.id = some n
        ∧ 1 ≤ n ∧ n ≤ d.questions.length)
    ∧ (∀ n, 1 ≤ n → n ≤ d.questions.length →
        ∃ q ∈ d.questions, displayId d q.id = some n)
    ∧ (∀ q ∈ d.questions, ∀ q2 ∈ d.questions,
        displayId d q.id = displayId d q2.id → q.id = q2.id)
    ∧ (∀ term selCat term2 selCat2 q,
        renderedDisplayId d term selCat q = renderedDisplayId d term2 selCat2 q) := by
  have hperm : (sortedAll d).Perm (d.questions.map normalizeQ) := sortedAll_perm d
  have hidperm : ((sortedAll d).map Question.id).Perm (d.questions.map Question.id) := by
    have h1 := hperm.map Question.id
    rw [List.map_map] at h1
    exact h1
  have hnd : ((sortedAll d).map Question.id).Nodup := hidperm.nodup_iff.mpr hids
  have hlen : (sortedAll d).length = d.questions.length := by
    rw [hperm.length_eq, List.length_map]
  have key : ∀ q ∈ d.questions, ∃ i : Fin (sortedAll d).length,
      ((sortedAll d).get i).id = q.id ∧ displayId d q.id = some (1 + i.val) := by
    intro q hq
    have hmem : q.id ∈ (sortedAll d).map Question.id :=
      hidperm.mem_iff.mpr (List.mem_map_of_mem Question.id hq)
    rw [List.mem_map] at hmem
    obtain ⟨q2, hq2, hq2id⟩ := hmem
    obtain ⟨i, hi⟩ := List.mem_iff_get.mp hq2
    refine ⟨i, by rw [hi, hq2id], ?_⟩
    rw [displayId, displayIdPairs, ← hq2id, ← hi]
    exact objLookup_tagFrom (sortedAll d) 1 i.val i.isLt hnd
  refine ⟨?_, ?_, ?_, ?_⟩
  · intro q hq
    obtain ⟨i, _, hl⟩ := key q hq
    refine ⟨1 + i.val, hl, by omega, ?_⟩
    have := i.isLt
    omega
  · intro n h1 hN
    have hi : n - 1 < (sortedAll d).length := by omega
    have hl := objLookup_tagFrom (sortedAll d) 1 (n - 1) hi hnd
    have hmem : (sortedAll d).get ⟨n - 1, hi⟩ ∈ sortedAll d :=
      List.get_mem (sortedAll d) (n - 1) hi
    have hmem2 : (sortedAll d).get ⟨n - 1, hi⟩ ∈ d.questions.map normalizeQ :=
      hperm.mem_iff.mp hmem
    rw [List.mem_map] at hmem2
    obtain ⟨q0, hq0, hq0eq⟩ := hmem2
    refine ⟨q0, hq0, ?_⟩
    have hid : q0.id = ((sortedAll d).get ⟨n - 1, hi⟩).id := by
      rw [← hq0eq]
      rfl
    rw [hid, displayId, displayIdPairs, hl]
    congr 1
    omega
  · intro q hq q2 hq2 heq
    obtain ⟨i, hgi, hli⟩ := key q hq
    obtain ⟨j, hgj, hlj⟩ := key q2 hq2
    rw [hli, hlj] at heq
    have hij : i.val = j.val := by
      have := Option.some.inj heq
      omega
    rw [← hgi, ← hgj, show i = j from Fin.ext hij]
  · intro term selCat term2 selCat2 q
    rfl

/-- Witness for C1 at the scenario dataset, whose ids are unique. -/
theorem displayIdMap_bijection_witness :
    ∃ n, displayId exDataset (exQ 1 (some "Sync")).id = some n ∧ 1 ≤ n ∧ n ≤ 3 :=
  (displayIdMap_bijection exDataset (by decide)).1 (exQ 1 (some "Sync")) (by decide)

/-! The resolved category list against its specification. -/

/-- Alphabetical comparison as a boolean, the specification's reading of
sorting category names (string comparison is modelled code-point-wise, the
shallow stand-in for locale-aware comparison). -/
def alphaLe (a b : String) : Bool := decide (a ≤ b)

theorem strLeB_eq_alphaLe (a b : String) : strLeB a b = alphaLe a b := by
  rw [strLeB, alphaLe]
  exact decide_eq_decide.mpr (strCmpInt_le_zero a b)

theorem contains_eq_decide_mem (l : List String) (c : String) :
    l.contains c = decide (c ∈ l) := by
  induction l with
  | nil => simp
  | cons x xs ih =>
    by_cases h : c = x
    · simp [h]
    · simp [List.contains_cons, ih, h, Ne.symm h]

/-- Specification rendering of the resolved category list (§4.1): "All",
then the `categoryOrder` entries that appear among the distinct normalized
categories in declared order, then the remaining distinct normalized
categories sorted alphabetically; without a declared order, all distinct
normalized categories sorted alphabetically. -/
def categoriesSpec (d : Dataset) : List String :=
  match d.categoryOrder with
  | some order =>
    "All" :: (order.filter (fun c => decide (c ∈ dedupFirst (d.questions.map normCat)))
      ++ sortLe alphaLe ((dedupFirst (d.questions.map normCat)).filter
          (fun c => decide (c ∉ order))))
  | none => "All" :: sortLe alphaLe (dedupFirst (d.questions.map normCat))

/-- C5: the resolved category list equals its specification, and an empty
question list yields exactly the singleton "All". -/
theorem categories_eq_spec (d : Dataset) :
    categories d = categoriesSpec d
    ∧ (d.questions = [] → categories d = ["All"]) := by
  constructor
  · cases ho : d.categoryOrder with
    | none =>
      simp only [categories, categoriesSpec, ho]
      congr 1
      exact sortLe_congr _ _ strLeB_eq_alphaLe _
    | some order =>
      simp only [categories, categoriesSpec, ho]
      congr 1
      congr 1
      · exact List.filter_congr (fun c _ => contains_eq_decide_mem _ c)
      · rw [sortLe_congr _ _ strLeB_eq_alphaLe]
        congr 1
        apply List.filter_congr
        intro c _
        rw [contains_eq_decide_mem order c, ← decide_not]
  · intro hq
    cases ho : d.categoryOrder with
    | none =>
      simp [categories, ho, hq, sortLe, dedupFirst, dedupFirstAux]
    | some order =>
      simp [categories, ho, hq, sortLe, dedupFirst, dedupFirstAux, List.contains]

/-- Witness for C5 at the empty dataset. -/
theorem categories_eq_spec_witness : categories emptyDataset = ["All"] :=
  (categories_eq_spec emptyDataset).2 rfl

/-! The inline-code formatter. -/

theorem string_ext (a b : String) (h : a.data = b.data) : a = b := by
  cases a
  cases b
  exact congrArg String.mk h

theorem joinParts_scanParts_aux (N : Nat) : ∀ (acc l : List Char), l.length ≤ N →
    joinParts (scanParts acc l) = acc.reverse ++ l := by
  induction N with
  | zero =>
    intro acc l hl
    have hnil : l = [] := List.eq_nil_of_length_eq_zero (by omega)
    subst hnil
    simp [scanParts, joinParts]
  | succ N ihN =>
    intro acc l hl
    cases l with
    | nil => simp [scanParts, joinParts]
    | cons c cs =>
      rw [List.length_cons] at hl
      rw [scanParts]
      by_cases hc : (c == tick) = true
      · rw [if_pos hc]
        split
        · rw [ihN (c :: acc) cs (by omega)]
          simp
        · rw [ihN (c :: acc) cs (by omega)]
          simp
        · rename_i r0 run r1 rest1 heq
          by_cases hr1 : (r1 == tick) = true
          · rw [if_pos hr1]
            have hcs : (r0 :: run) ++ (r1 :: rest1) = cs := by
              have e := takeRun_append cs
              rw [heq] at e
              exact e
            have hrest : rest1.length ≤ N := by
              have hlen2 := congrArg List.length hcs
              simp only [List.length_append, List.length_cons] at hlen2
              omega
            rw [joinParts, List.foldr_cons, List.foldr_cons,
              show List.foldr (· ++ ·) [] (scanParts [] rest1)
                = joinParts (scanParts [] rest1) from rfl,
              ihN [] rest1 hrest]
            rw [eq_of_beq hr1] at hcs
            rw [eq_of_beq hc, ← hcs]
            simp
          · rw [if_neg hr1]
            rw [ihN (c :: acc) cs (by omega)]
            simp
      · rw [if_neg hc]
        rw [ihN (c :: acc) cs (by omega)]
        simp

theorem joinParts_scanParts (acc l : List Char) :
    joinParts (scanParts acc l) = acc.reverse ++ l :=
  joinParts_scanParts_aux l.length acc l (le_refl _)

theorem renderPart_isCode (p : List Char) :
    (renderPart p).isCode = (p.head? == some tick && p.getLast? == some tick) := by
  cases hb : (p.head? == some tick && p.getLast? == some tick) with
  | true => simp [renderPart, hb]
  | false => simp [renderPart, hb]

theorem dropLast_append_getLast_tick :
    ∀ m : List Char, m.getLast? = some tick → m.dropLast ++ [tick] = m := by
  intro m
  induction m with
  | nil =>
    intro h
    exact absurd h (by simp)
  | cons x xs ih =>
    intro h
    cases xs with
    | nil =>
      simp at h
      simp [h]
    | cons y ys =>
      rw [List.getLast?_cons_cons] at h
      show (x :: (y :: ys).dropLast) ++ [tick] = x :: y :: ys
      rw [List.cons_append, ih h]

theorem restore_renderPart (p : List Char) (hlen : 2 ≤ p.length)
    (hcode : (renderPart p).isCode = true) :
    restoreSegment (renderPart p) = String.mk p := by
  rw [renderPart_isCode, Bool.and_eq_true] at hcode
  obtain ⟨hh, hl⟩ := hcode
  cases p with
  | nil => simp at hlen
  | cons c m =>
    have hc : c = tick := by
      have h0 := eq_of_beq hh
      simpa using h0
    have hm : m ≠ [] := by
      intro hx
      rw [hx] at hlen
      simp at hlen
    have hlast : m.getLast? = some tick := by
      have h0 := eq_of_beq hl
      cases m with
      | nil => exact absurd rfl hm
      | cons y ys =>
        rw [List.getLast?_cons_cons] at h0
        exact h0
    have hcode2 : ((c :: m).head? == some tick && (c :: m).getLast? == some tick) = true := by
      rw [Bool.and_eq_true]
      exact ⟨hh, hl⟩
    rw [restoreSegment, renderPart, if_pos hcode2]
    simp only [if_pos rfl]
    apply string_ext
    show [tick] ++ (((c :: m).drop 1).dropLast ++ [tick]) = c :: m
    rw [show (c :: m).drop 1 = m from rfl]
    rw [dropLast_append_getLast_tick m hlast, hc]
    rfl

/-- The one-character backtick string. -/
def tickStr : String := String.mk [tick]

/-- C10 counterexample: on the input consisting of one lone backtick, the
formatter produces a single inline-code segment with empty content (its
first and last character are the same backtick, with no non-backtick
characters between), and restoring the surrounding backticks yields two
backticks, not the original input. -/
theorem formatText_claim_false :
    formatText tickStr = [{ isCode := true, text := "" }]
    ∧ restoreSegments (formatText tickStr) ≠ tickStr := by
  have hsplit : splitParts tickStr = [[tick]] := by
    simp [splitParts, tickStr, scanParts, takeRun]
  have hfmt : formatText tickStr = [{ isCode := true, text := "" }] := by
    rw [formatText, hsplit, List.map_cons, List.map_nil]
    congr 1
  refine ⟨hfmt, ?_⟩
  rw [hfmt]
  decide

/-- C10 amended: for every non-empty input the raw split parts concatenate
back to the input exactly; a part is rendered as inline code iff its first
and last characters are backticks (a lone backtick qualifies, both tests
seeing the same character, and renders as empty inline code); and for code
parts of length at least two, restoring the surrounding backticks
reproduces the raw part, so the claimed reproduction holds whenever no
part is a lone backtick. -/
theorem formatText_amended (s : String) (hs : s ≠ "") :
    formatText s = (splitParts s).map renderPart
    ∧ String.mk (joinParts (splitParts s)) = s
    ∧ (∀ p ∈ splitParts s, (renderPart p).isCode
        = (p.head? == some tick && p.getLast? == some tick))
    ∧ (∀ p ∈ splitParts s, 2 ≤ p.length → (renderPart p).isCode = true →
        restoreSegment (renderPart p) = String.mk p) := by
  refine ⟨rfl, ?_, ?_, ?_⟩
  · rw [splitParts, joinParts_scanParts]
    exact string_ext _ _ rfl
  · intro p _
    exact renderPart_isCode p
  · intro p _ hlen hcode
    exact restore_renderPart p hlen hcode

/-- Witness for the amended C10 at a concrete mixed input. -/
theorem formatText_amended_witness :
    String.mk (joinParts (splitParts (String.mk ['a', tick, 'b', tick, 'c'])))
      = String.mk ['a', tick, 'b', tick, 'c'] :=
  (formatText_amended (String.mk ['a', tick, 'b', tick, 'c']) (by decide)).2.1

end QuizApp
